import Mathlib

/-!
Shallow embedding of the `po` content-addressed file library manager
(`src/library.rs` and `src/main.rs`), together with proofs about its
deduplication index, on-disk persistence format, and sorting/placement
operations.

Strings are modelled as `List Char` (the persisted index file is ASCII in
every reachable state; byte offsets used by the Rust code coincide with
character offsets there).  Machine integers are modelled as `Nat` with
explicit bounds where the Rust types impose them (`u16` version field,
`u8` bytes).  Fallible Rust code returning `eyre::Result` is modelled by
the `Outcome` type below, which distinguishes ordinary errors from panics
(`assert!`, `expect`, out-of-bounds `split_at`).
-/

namespace Po

abbrev Str := List Char

/-- Error taxonomy of the library core (eyre error values, by cause). -/
inductive PoError where
  | ioError
  | corruptSentinel
  | corruptVersion
  | unsupportedVersion (v : Nat)
  | badHashLength (n : Nat)
  | badHex
  | metadataError
deriving DecidableEq

/-- Result of running a fallible library operation: success, an `eyre`
error propagated with `?`, or a Rust panic (`assert!` / `expect` /
out-of-bounds slicing). -/
inductive Outcome (α : Type) where
  | ok : α → Outcome α
  | err : PoError → Outcome α
  | panicked : Outcome α
deriving DecidableEq

/-- Content hash wrapper, `struct FileHash(Vec<u8>)` in `library.rs`.
Bytes are `Nat`s; a hash produced by SHA-256 has 32 bytes each below 256
(see `ValidHash`). -/
structure FileHash where
  bytes : List Nat
deriving DecidableEq

/-- Hashes actually produced by `Sha256::finalize`: 32 bytes, each a `u8`. -/
def ValidHash (h : FileHash) : Prop :=
  h.bytes.length = 32 ∧ ∀ b ∈ h.bytes, b < 256

/-- Lower-case hex digit for a value below 16 (`hex::encode` alphabet). -/
def hexDigitChar (n : Nat) : Char :=
  if n < 10 then Char.ofNat (48 + n) else Char.ofNat (87 + n)

/-- Value of a hex digit, upper or lower case (`hex::decode` accepts both);
`none` for a non-hex character. -/
def hexVal (c : Char) : Option Nat :=
  if '0' ≤ c ∧ c ≤ '9' then some (c.toNat - 48)
  else if 'a' ≤ c ∧ c ≤ 'f' then some (c.toNat - 87)
  else if 'A' ≤ c ∧ c ≤ 'F' then some (c.toNat - 55)
  else none

/-- Decode a hex string into bytes, two characters per byte; fails on odd
length or any non-hex character (`hex::decode`). -/
def hexDecode : Str → Option (List Nat)
  | [] => some []
  | [_] => none
  | a :: b :: rest =>
    match hexVal a, hexVal b, hexDecode rest with
    | some x, some y, some r => some ((16 * x + y) :: r)
    | _, _, _ => none

/-- `FileHash::encode`: lowercase hex, two characters per byte
(`hex::encode`). -/
def FileHash.encode (h : FileHash) : Str :=
  h.bytes.flatMap (fun b => [hexDigitChar (b / 16), hexDigitChar (b % 16)])

/-- `HASH_LENGTH` in `library.rs`. -/
def HASH_LENGTH : Nat := 64

/-- `FileHash::decode`: requires exactly `HASH_LENGTH` characters, then
hex-decodes; errors mirror the two failure arms in the source. -/
def FileHash.decode (value : Str) : Outcome FileHash :=
  if value.length ≠ HASH_LENGTH then .err (.badHashLength value.length)
  else
    match hexDecode value with
    | some bytes => .ok ⟨bytes⟩
    | none => .err .badHex

/-- Whitespace test used to model Rust `str::trim` (ASCII contents make
Unicode white-space and `Char.isWhitespace` agree). -/
def isWs (c : Char) : Bool := c.isWhitespace

/-- Rust `str::trim`: strip whitespace from both ends. -/
def trimStr (s : Str) : Str :=
  ((s.dropWhile isWs).reverse.dropWhile isWs).reverse

/-- Rust `str::starts_with` on character lists. -/
def isPre : Str → Str → Bool
  | [], _ => true
  | a :: as, s =>
    match s with
    | [] => false
    | b :: bs => (a == b) && isPre as bs

/-- Rust `str::split_once(sep)`: split at the first occurrence of `sep`,
returning the parts before and after it. -/
def splitOnce (sep : Str) : Str → Option (Str × Str)
  | [] => if isPre sep [] then some ([], []) else none
  | c :: rest =>
    if isPre sep (c :: rest) then some ([], (c :: rest).drop sep.length)
    else
      match splitOnce sep rest with
      | some (pre, post) => some (c :: pre, post)
      | none => none

/-- Split a character list at every newline (both sides of each newline
kept; the result always has one more part than there are newlines). -/
def splitNl : Str → List Str
  | [] => [[]]
  | c :: rest =>
    if c = '\n' then [] :: splitNl rest
    else
      match splitNl rest with
      | [] => [[c]]
      | l :: ls => (c :: l) :: ls

/-- Strip one trailing carriage return, as Rust `str::lines` does per line. -/
def dropCR (l : Str) : Str :=
  if l.getLast? = some '\r' then l.dropLast else l

/-- Rust `str::lines`: split on newlines treating a final newline as a
terminator, and strip one trailing carriage return from each line. -/
def rustLines (s : Str) : List Str :=
  let parts := splitNl s
  let parts := if parts.getLast? = some [] then parts.dropLast else parts
  parts.map dropCR

/-- Decimal digit value, `none` for non-digits. -/
def digToNat (c : Char) : Option Nat :=
  if '0' ≤ c ∧ c ≤ '9' then some (c.toNat - 48) else none

/-- Accumulate decimal digits left to right. -/
def parseDigitsAux : Str → Nat → Option Nat
  | [], acc => some acc
  | c :: rest, acc =>
    match digToNat c with
    | some d => parseDigitsAux rest (acc * 10 + d)
    | none => none

/-- Rust `str::parse::<u16>`: optional leading plus sign, at least one
digit, value within `u16` range. -/
def parseU16 (s : Str) : Option Nat :=
  let t := match s with
    | '+' :: r => r
    | r => r
  match t with
  | [] => none
  | _ =>
    match parseDigitsAux t 0 with
    | some v => if v ≤ 65535 then some v else none
    | none => none

/-- `CONTENT_SENTINEL` in `library.rs`. -/
def sentinelChars : Str := "--START-CONTENT--".data

/-- `SUPPORTED_VERSION_MAX` in `library.rs`. -/
def SUPPORTED_VERSION_MAX : Nat := 1

/-- `CURRENT_VERSION` in `library.rs`. -/
def CURRENT_VERSION : Nat := 1

/-- One entry of the loaded index, `struct LibraryFile` in `library.rs`. -/
structure LibraryFile where
  hash : FileHash
  path_in_library : Str
deriving DecidableEq

/-- Body-line parsing loop of `Library::read_hash_file`: for each line,
`split_at(HASH_LENGTH)` (which panics when the line is shorter than the
hash length), decode the trimmed hash segment, keep the trimmed remainder
as the path; the first failure aborts the whole parse. -/
def parseLines : List Str → Outcome (List LibraryFile)
  | [] => .ok []
  | l :: rest =>
    if l.length < HASH_LENGTH then .panicked
    else
      match FileHash.decode (trimStr (l.take HASH_LENGTH)) with
      | .err e => .err e
      | .panicked => .panicked
      | .ok h =>
        match parseLines rest with
        | .ok fs => .ok (⟨h, trimStr (l.drop HASH_LENGTH)⟩ :: fs)
        | r => r

/-- Pure core of `Library::read_hash_file`, applied to the text content of
the `hashes` file: split at the sentinel, parse and gate the version, then
parse the body lines. -/
def read_hash_content (content : Str) : Outcome (List LibraryFile) :=
  match splitOnce sentinelChars content with
  | none => .err .corruptSentinel
  | some (version, hashes) =>
    match parseU16 (trimStr version) with
    | none => .err .corruptVersion
    | some v =>
      if v > SUPPORTED_VERSION_MAX then .err (.unsupportedVersion v)
      else parseLines (rustLines (trimStr hashes))

/-- One body line as written by `Library::persist_to_disk`'s fold:
encoded hash, single space, path. -/
def entryLine (f : LibraryFile) : Str :=
  f.hash.encode ++ ' ' :: f.path_in_library

/-- Full text written by `Library::persist_to_disk`: version line,
sentinel line, then one terminated line per entry. -/
def persistContent (files : List LibraryFile) : Str :=
  '1' :: '\n' :: sentinelChars ++ '\n' :: files.flatMap (fun f => entryLine f ++ ['\n'])

/-- Lower-case hex digit test (the alphabet `FileHash::encode` emits). -/
def isLowerHex (c : Char) : Bool :=
  decide ('0' ≤ c ∧ c ≤ '9') || decide ('a' ≤ c ∧ c ≤ 'f')

/-- Paths that survive the persisted format unchanged: nonempty, no
leading or trailing whitespace (the parser trims each segment), and no
newline (the format is line-oriented). -/
def CleanPath (p : Str) : Prop :=
  p ≠ [] ∧ (∀ c, p.head? = some c → isWs c = false) ∧
    (∀ c, p.getLast? = some c → isWs c = false) ∧ '\n' ∉ p

/-- Join lines with single newlines (no terminator). -/
def joinNl : List Str → Str
  | [] => []
  | [l] => l
  | l :: ls => l ++ '\n' :: joinNl ls

/-- Metadata recorded for one file in the modelled filesystem: its byte
content (as characters) and its creation timestamp in whole seconds since
the Unix epoch, `none` when the platform exposes no creation time
(`fs::Metadata::created` returning an error). -/
structure FileData where
  content : Str
  created : Option Nat
deriving DecidableEq

/-- Filesystem model: an association list from paths to file data (first
binding wins) plus the set of existing directories.  Only the failure
modes the library code distinguishes are modelled: a missing source for
`rename` / `metadata`, and a missing parent directory for
`File::create`. -/
structure FS where
  files : List (Str × FileData)
  dirs : List Str
deriving DecidableEq

/-- Look a path up in an association list of files. -/
def lookupFile : List (Str × FileData) → Str → Option FileData
  | [], _ => none
  | (q, d) :: rest, p => if q = p then some d else lookupFile rest p

/-- Look a path up in the filesystem. -/
def fsLookup (fs : FS) (p : Str) : Option FileData :=
  lookupFile fs.files p

/-- Create or overwrite a file (`fs::write`, `File::create`). -/
def setFile (fs : FS) (p : Str) (d : FileData) : FS :=
  { fs with files := (p, d) :: fs.files.filter (fun e => e.1 ≠ p) }

/-- `fs::rename`: move the file at `src` to `dst`, failing (`none`) when
the source does not exist; an existing destination is overwritten, as on
Unix. -/
def renameFile (fs : FS) (src dst : Str) : Option FS :=
  match lookupFile fs.files src with
  | none => none
  | some d =>
    some { fs with files := (dst, d) :: (fs.files.filter (fun e => e.1 ≠ src)) }

/-- Join a path and a further component with a slash (`PathBuf::push` /
`Path::join` for a relative component). -/
def pjoin (a b : Str) : Str := a ++ '/' :: b

/-- Split a path at every slash. -/
def splitSlash : Str → List Str
  | [] => [[]]
  | c :: rest =>
    if c = '/' then [] :: splitSlash rest
    else
      match splitSlash rest with
      | [] => [[c]]
      | l :: ls => (c :: l) :: ls

/-- `Path::file_name`: the final normal component of the path, ignoring
empty and `.` components; `none` for an empty path or one ending in
`..`. -/
def fileName (p : Str) : Option Str :=
  match ((splitSlash p).filter (fun c => decide (c ≠ [] ∧ c ≠ ['.']))).getLast? with
  | none => none
  | some c => if c = ['.', '.'] then none else some c

/-- Join path components back with slashes. -/
def joinComps : List Str → Str
  | [] => []
  | [c] => c
  | c :: rest => c ++ '/' :: joinComps rest

/-- Every ancestor prefix of a path, the path itself included. -/
def ancestors (p : Str) : List Str :=
  p :: (List.range (splitSlash p).length).map
    (fun i => joinComps ((splitSlash p).take (i + 1)))

/-- `fs::create_dir_all`: record the directory and all its ancestors as
existing. -/
def createDirAll (fs : FS) (p : Str) : FS :=
  { fs with dirs := ancestors p ++ fs.dirs }

/-- Name of the metadata directory under the output root. -/
def metaDirName : Str := "_pometa".data

/-- Name of the persisted index file inside the metadata directory. -/
def hashesName : Str := "hashes".data

/-- Absolute path of the persisted index file for an output root. -/
def hashes_path (root : Str) : Str :=
  pjoin (pjoin root metaDirName) hashesName

/-- `struct Library` in `library.rs`. -/
structure Library where
  output_root : Str
  meta_root : Str
  files : List LibraryFile
deriving DecidableEq

/-- A candidate file together with its computed hash,
`struct UnsortedFile` in `library.rs`. -/
structure UnsortedFile where
  hash : FileHash
  path : Str
deriving DecidableEq

/-- `enum SortPolicy` in `library.rs`. -/
inductive SortPolicy where
  | date
  | moveToRoot
deriving DecidableEq

/-- `Library::read_from_disk` combined with `read_hash_file` and
`ensure_meta_file`: derive the metadata root, create the `hashes` file
when absent (returning an empty index immediately in that bootstrap
case, and an IO error when the metadata directory that `File::create`
needs does not exist), otherwise parse the existing file's content.
Returns the loaded library together with the possibly-updated
filesystem. -/
def read_from_disk (output_root : Str) (fs : FS) : Outcome (Library × FS) :=
  let meta_root := pjoin output_root metaDirName
  let hpath := pjoin meta_root hashesName
  match fsLookup fs hpath with
  | some d =>
    match read_hash_content d.content with
    | .ok es => .ok ({ output_root := output_root, meta_root := meta_root, files := es }, fs)
    | .err e => .err e
    | .panicked => .panicked
  | none =>
    if meta_root ∈ fs.dirs then
      .ok ({ output_root := output_root, meta_root := meta_root, files := [] },
           setFile fs hpath ⟨[], none⟩)
    else .err .ioError

/-- `Library::persist_to_disk`: assert that the `hashes` file exists
(panicking otherwise, per `assert!`), then overwrite it with the
serialized entry collection. -/
def persist_to_disk (lib : Library) (fs : FS) : FS × Outcome Unit :=
  let hpath := pjoin lib.meta_root hashesName
  match fsLookup fs hpath with
  | none => (fs, .panicked)
  | some d => (setFile fs hpath ⟨persistContent lib.files, d.created⟩, .ok ())

/-- `FileHash::from_file`: hash the content of the file at `path`,
failing with an IO error when it cannot be opened.  The SHA-256 digest
itself is modelled as an arbitrary function of the content, passed in as
`hashFn`; everything the claims need is that the digest depends only on
the byte content. -/
def FileHash.from_file (hashFn : Str → FileHash) (fs : FS) (path : Str) : Outcome FileHash :=
  match fsLookup fs path with
  | some d => .ok (hashFn d.content)
  | none => .err .ioError

/-- `Library::process_inputs`: hash each candidate in order, keep those
whose hash matches no current entry, skip the rest; the first hashing
failure aborts.  The library value is threaded through unchanged, as the
`&mut self` method never writes to it. -/
def process_inputs (hashFn : Str → FileHash) (lib : Library) (fs : FS) :
    List Str → Outcome (Library × List UnsortedFile)
  | [] => .ok (lib, [])
  | p :: rest =>
    match FileHash.from_file hashFn fs p with
    | .err e => .err e
    | .panicked => .panicked
    | .ok h =>
      match process_inputs hashFn lib fs rest with
      | .ok (lib1, fs1) =>
        .ok (lib1, if lib.files.any (fun f => f.hash = h) then fs1 else ⟨h, p⟩ :: fs1)
      | r => r

/-- Specification of `check_new` transcribed from the design document:
for each candidate, compute its content hash and keep it exactly when no
current entry has an equal hash (membership by hash, never by path).
Used as the comparison target for the `process_inputs`
characterization. -/
def specNewFiles (hashFn : Str → FileHash) (lib : Library) (fs : FS) (inputs : List Str) :
    List UnsortedFile :=
  inputs.filterMap (fun p =>
    (fsLookup fs p).bind (fun d =>
      if lib.files.any (fun f => f.hash = hashFn d.content) then none
      else some ⟨hashFn d.content, p⟩))

/-- Civil date (year, month, day) of a day count since 1970-01-01 in the
proleptic Gregorian calendar, as computed by the `time` crate when the
code evaluates `datetime!(1970-01-01 0:00) + created`. -/
def civilFromDays (days : Nat) : Nat × Nat × Nat :=
  let z := days + 719468
  let era := z / 146097
  let doe := z % 146097
  let yoe := (doe - doe / 1460 + doe / 36524 - doe / 146097) / 365
  let y := yoe + era * 400
  let doy := doe - (365 * yoe + yoe / 4 - yoe / 100)
  let mp := (5 * doy + 2) / 153
  let d := doy - (153 * mp + 2) / 5 + 1
  let m := if mp < 10 then mp + 3 else mp - 9
  (if m ≤ 2 then y + 1 else y, m, d)

/-- Decimal rendering of a natural number (`to_string` on the year,
month and day components: plain decimal, no zero padding). -/
def natStr (n : Nat) : Str := (Nat.repr n).data

/-- Relative `year/month/day` directory for a creation timestamp of `t`
seconds since the Unix epoch. -/
def dateDir (t : Nat) : Str :=
  let ymd := civilFromDays (t / 86400)
  natStr ymd.1 ++ '/' :: natStr ymd.2.1 ++ '/' :: natStr ymd.2.2

/-- Body of `Library::sort_files` for a single file: compute the
destination under the policy, move the file, and append the new entry to
the collection only after the move succeeds.  Returns the updated
library, the updated filesystem, and the outcome; on failure the library
and filesystem reflect exactly the work already done (no rollback). -/
def sortOne (lib : Library) (fs : FS) (file : UnsortedFile) (policy : SortPolicy) :
    Library × FS × Outcome Unit :=
  match policy with
  | .moveToRoot =>
    match fileName file.path with
    | none => (lib, fs, .panicked)
    | some fname =>
      match renameFile fs file.path (pjoin lib.output_root fname) with
      | none => (lib, fs, .err .ioError)
      | some fs1 =>
        ({ lib with files := lib.files ++ [⟨file.hash, fname⟩] }, fs1, .ok ())
  | .date =>
    match fsLookup fs file.path with
    | none => (lib, fs, .err .ioError)
    | some d =>
      match d.created with
      | none => (lib, fs, .err .metadataError)
      | some t =>
        let relDir := dateDir t
        let fs1 := createDirAll fs (pjoin lib.output_root relDir)
        match fileName file.path with
        | none => (lib, fs1, .panicked)
        | some fname =>
          let rel := relDir ++ '/' :: fname
          match renameFile fs1 file.path (pjoin lib.output_root rel) with
          | none => (lib, fs1, .err .ioError)
          | some fs2 =>
            ({ lib with files := lib.files ++ [⟨file.hash, rel⟩] }, fs2, .ok ())

/-- `Library::sort_files`: process the batch strictly in input order,
stopping at the first failing file and leaving prior successes
committed. -/
def sort_files (lib : Library) (fs : FS) (files : List UnsortedFile) (policy : SortPolicy) :
    Library × FS × Outcome Unit :=
  match files with
  | [] => (lib, fs, .ok ())
  | f :: rest =>
    match sortOne lib fs f policy with
    | (lib1, fs1, .ok _) => sort_files lib1 fs1 rest policy
    | r => r

/-- Library states reachable by any sequence of the public operations:
an initial successful `read_from_disk`, then any number of import rounds,
each of which runs `process_inputs` on the current state and
`sort_files` on its output (the control flow of `do_import` in
`main.rs`).  A `process_inputs` call on its own leaves the state
unchanged, so it needs no separate constructor. -/
inductive Reach (hashFn : Str → FileHash) : Library → FS → Prop where
  | load (root : Str) (fs0 : FS) (lib : Library) (fs1 : FS) :
      read_from_disk root fs0 = .ok (lib, fs1) → Reach hashFn lib fs1
  | imported (lib : Library) (fs : FS) (inputs : List Str) (policy : SortPolicy)
      (lib1 : Library) (nf : List UnsortedFile) :
      Reach hashFn lib fs →
      process_inputs hashFn lib fs inputs = .ok (lib1, nf) →
      Reach hashFn (sort_files lib1 fs nf policy).1 (sort_files lib1 fs nf policy).2.1

/-- Reachability restricted as the dedup invariant requires: the loaded
index is duplicate-free, and each imported batch consists of candidates
with pairwise distinct hashes (genuinely distinct contents). -/
inductive ReachDistinct (hashFn : Str → FileHash) : Library → FS → Prop where
  | load (root : Str) (fs0 : FS) (lib : Library) (fs1 : FS) :
      read_from_disk root fs0 = .ok (lib, fs1) →
      (lib.files.map LibraryFile.hash).Nodup →
      ReachDistinct hashFn lib fs1
  | imported (lib : Library) (fs : FS) (inputs : List Str) (policy : SortPolicy)
      (lib1 : Library) (nf : List UnsortedFile) :
      ReachDistinct hashFn lib fs →
      process_inputs hashFn lib fs inputs = .ok (lib1, nf) →
      (nf.map UnsortedFile.hash).Nodup →
      ReachDistinct hashFn (sort_files lib1 fs nf policy).1 (sort_files lib1 fs nf policy).2.1

/-- Concrete stand-in for SHA-256 in closed computations: some function
of the byte content (the claims below depend only on the digest being
content-determined). -/
def testHashFn : Str → FileHash := fun c => ⟨[c.length % 256]⟩

/-- Output root used by the concrete scenarios. -/
def outRootC : Str := "out".data

/-- Filesystem before the first load in the duplicate-batch scenario:
two distinct input files with byte-identical content, an existing output
root and metadata directory, and no index file yet. -/
def fsReach0 : FS :=
  ⟨[("in/a".data, ⟨['x'], some 0⟩), ("in/b".data, ⟨['x'], some 0⟩)],
   [pjoin outRootC metaDirName, outRootC]⟩

/-- The empty library produced by the bootstrap load. -/
def libEmptyC : Library := ⟨outRootC, pjoin outRootC metaDirName, []⟩

/-- Filesystem after the bootstrap load created the empty index file. -/
def fsReach1 : FS := setFile fsReach0 (hashes_path outRootC) ⟨[], none⟩

/-- The batch `process_inputs` returns for the two byte-identical
candidates: both are new relative to the empty index, so both appear. -/
def dupBatch : List UnsortedFile :=
  [⟨testHashFn ['x'], "in/a".data⟩, ⟨testHashFn ['x'], "in/b".data⟩]

/-- Library after sorting the duplicate batch into the root. -/
def libDup : Library := (sort_files libEmptyC fsReach1 dupBatch .moveToRoot).1

/-- Filesystem after sorting the duplicate batch into the root. -/
def fsDup : FS := (sort_files libEmptyC fsReach1 dupBatch .moveToRoot).2.1

/-- An all-zero 32-byte hash (a perfectly valid SHA-256 digest shape). -/
def zeroHash : FileHash := ⟨List.replicate 32 0⟩

/-- A library whose single entry has a path containing a newline. -/
def nlLib : Library :=
  ⟨outRootC, pjoin outRootC metaDirName, [⟨zeroHash, ['a', '\n', 'b']⟩]⟩

/-- Filesystem holding an (empty) index file for `nlLib` to overwrite. -/
def fsNl : FS :=
  ⟨[(hashes_path outRootC, ⟨[], none⟩)], [pjoin outRootC metaDirName, outRootC]⟩

/-- Filesystem with an existing output root but no metadata directory
and no index file: the state of a genuinely fresh output root. -/
def fsNoMeta : FS := ⟨[], [outRootC]⟩

/-- Index content whose body has a line shorter than the hash length. -/
def shortLineContent : Str :=
  '1' :: '\n' :: sentinelChars ++ '\n' :: ['a', 'b', 'c']

/-- Index content whose single body line has the right length but a
non-hex hash segment. -/
def zContent : Str :=
  '1' :: '\n' :: sentinelChars ++ '\n' :: List.replicate 64 'z'

/-- Index content with version 2 (above the supported maximum). -/
def ver2Content : Str := '2' :: '\n' :: sentinelChars ++ ['\n']

/-- Index content with version 1 and an empty body. -/
def ver1Content : Str := '1' :: '\n' :: sentinelChars ++ ['\n']

/-- A candidate whose source path does not exist in the filesystem. -/
def missFile : UnsortedFile := ⟨testHashFn ['m'], "in/missing".data⟩

/-- A candidate photo created at `2024-03-05 06:13:20 UTC`
(timestamp 1709619200). -/
def picFile : UnsortedFile := ⟨testHashFn ['p'], "in/pic.jpg".data⟩

/-- Filesystem holding that photo. -/
def fsPic : FS := ⟨[("in/pic.jpg".data, ⟨['p'], some 1709619200⟩)], [outRootC]⟩

/-- A library with one well-formed entry (valid hash, clean path). -/
def cleanLib : Library :=
  ⟨outRootC, pjoin outRootC metaDirName, [⟨zeroHash, "a.jpg".data⟩]⟩

/-! Theorems.  First the hex layer, then the persisted-format layer, then
the library operations. -/

theorem hexVal_hexDigitChar : ∀ n < 16, hexVal (hexDigitChar n) = some n := by decide

theorem hexDigitChar_class :
    ∀ n < 16, isLowerHex (hexDigitChar n) = true ∧ isWs (hexDigitChar n) = false := by decide

theorem encodeBytes_length (bs : List Nat) :
    (bs.flatMap (fun b => [hexDigitChar (b / 16), hexDigitChar (b % 16)])).length
      = 2 * bs.length := by
  induction bs with
  | nil => rfl
  | cons b rest ih => simp [ih]; ring

theorem hexDecode_encodeBytes (bs : List Nat) (h : ∀ b ∈ bs, b < 256) :
    hexDecode (bs.flatMap (fun b => [hexDigitChar (b / 16), hexDigitChar (b % 16)]))
      = some bs := by
  induction bs with
  | nil => rfl
  | cons b rest ih =>
    have hb : b < 256 := h b (List.mem_cons_self b rest)
    have h1 : b / 16 < 16 := (Nat.div_lt_iff_lt_mul (by norm_num)).mpr (by omega)
    have h2 : b % 16 < 16 := Nat.mod_lt _ (by norm_num)
    have ih2 := ih (fun x hx => h x (List.mem_cons_of_mem b hx))
    show hexDecode (hexDigitChar (b / 16) :: hexDigitChar (b % 16) ::
      rest.flatMap (fun b => [hexDigitChar (b / 16), hexDigitChar (b % 16)])) = some (b :: rest)
    simp only [hexDecode, hexVal_hexDigitChar _ h1, hexVal_hexDigitChar _ h2, ih2]
    rw [Nat.div_add_mod b 16]

theorem encodeBytes_class (bs : List Nat) (h : ∀ b ∈ bs, b < 256) :
    ∀ c ∈ bs.flatMap (fun b => [hexDigitChar (b / 16), hexDigitChar (b % 16)]),
      isLowerHex c = true ∧ isWs c = false := by
  intro c hc
  rw [List.mem_flatMap] at hc
  obtain ⟨b, hb, hcb⟩ := hc
  have hb256 : b < 256 := h b hb
  have h1 : b / 16 < 16 := (Nat.div_lt_iff_lt_mul (by norm_num)).mpr (by omega)
  have h2 : b % 16 < 16 := Nat.mod_lt _ (by norm_num)
  simp only [List.mem_cons, List.not_mem_nil, or_false] at hcb
  rcases hcb with h' | h'
  · exact h' ▸ hexDigitChar_class _ h1
  · exact h' ▸ hexDigitChar_class _ h2

theorem encode_length (h : FileHash) (hv : ValidHash h) :
    (FileHash.encode h).length = 64 := by
  rw [FileHash.encode, encodeBytes_length, hv.1]

theorem decode_encode (h : FileHash) (hv : ValidHash h) :
    FileHash.decode (FileHash.encode h) = .ok h := by
  rw [FileHash.decode, if_neg (by rw [encode_length h hv]; exact fun hne => hne rfl)]
  rw [FileHash.encode, hexDecode_encodeBytes h.bytes hv.2]

theorem hexDecode_isNone (s : Str) (c : Char) (hc : c ∈ s) (hbad : hexVal c = none) :
    hexDecode s = none := by
  revert hc
  induction s using hexDecode.induct with
  | case1 => intro hc; cases hc
  | case2 a => intro _; rfl
  | case3 a b rest x y r hr hb ha ih =>
    intro hc
    rcases List.mem_cons.mp hc with rfl | hc2
    · rw [hbad] at ha; cases ha
    · rcases List.mem_cons.mp hc2 with rfl | hc3
      · rw [hbad] at hb; cases hb
      · rw [ih hc3] at hr; cases hr
  | case4 a b rest h ih =>
    intro _
    simp only [hexDecode]


/-- C7: for every valid 32-byte hash, `encode` emits exactly 64 lowercase
hex characters and `decode` inverts it; `decode` rejects every string
whose length is not 64 and every string containing a non-hex character. -/
theorem c7_encode_decode_roundtrip :
    (∀ h : FileHash, ValidHash h →
      (FileHash.encode h).length = 64 ∧
      (∀ c ∈ FileHash.encode h, isLowerHex c = true) ∧
      FileHash.decode (FileHash.encode h) = .ok h) ∧
    (∀ s : Str, s.length ≠ 64 → FileHash.decode s = .err (.badHashLength s.length)) ∧
    (∀ s : Str, ∀ c ∈ s, hexVal c = none → ∃ e, FileHash.decode s = .err e) := by
  refine ⟨fun h hv => ⟨encode_length h hv, ?_, decode_encode h hv⟩, ?_, ?_⟩
  · exact fun c hc => ((encodeBytes_class h.bytes hv.2 c) hc).1
  · intro s hs
    have hs' : s.length ≠ HASH_LENGTH := hs
    rw [FileHash.decode, if_pos hs']
  · intro s c hc hbad
    rw [FileHash.decode]
    by_cases hlen : s.length ≠ HASH_LENGTH
    · exact ⟨_, if_pos hlen⟩
    · rw [if_neg hlen, hexDecode_isNone s c hc hbad]
      exact ⟨_, rfl⟩

/-- C7 witness: concrete instance at the all-zero 32-byte hash and two
concrete rejected strings. -/
theorem c7_witness :
    ((FileHash.encode zeroHash).length = 64 ∧
      (∀ c ∈ FileHash.encode zeroHash, isLowerHex c = true) ∧
      FileHash.decode (FileHash.encode zeroHash) = .ok zeroHash) ∧
    FileHash.decode ['a', 'b'] = .err (.badHashLength 2) ∧
    (∃ e, FileHash.decode (List.replicate 64 'z') = .err e) := by
  refine ⟨c7_encode_decode_roundtrip.1 zeroHash ⟨by decide, by decide⟩, ?_, ?_⟩
  · exact c7_encode_decode_roundtrip.2.1 ['a', 'b'] (by decide)
  · exact c7_encode_decode_roundtrip.2.2 (List.replicate 64 'z') 'z' (by decide) (by decide)

theorem dropWhile_head_false (p : Char → Bool) (s : Str)
    (h : ∀ c, s.head? = some c → p c = false) : s.dropWhile p = s := by
  cases s with
  | nil => rfl
  | cons a t => rw [List.dropWhile_cons, h a rfl]; simp

theorem trimStr_eq_self (s : Str)
    (h1 : ∀ c, s.head? = some c → isWs c = false)
    (h2 : ∀ c, s.getLast? = some c → isWs c = false) : trimStr s = s := by
  unfold trimStr
  rw [dropWhile_head_false _ _ h1,
    dropWhile_head_false _ _ (fun c hc => h2 c (by rwa [List.head?_reverse] at hc)),
    List.reverse_reverse]

theorem trimStr_cons_ws (c : Char) (s : Str) (hc : isWs c = true) :
    trimStr (c :: s) = trimStr s := by
  unfold trimStr
  rw [List.dropWhile_cons, hc]
  simp

theorem mem_of_getLast? (l : Str) (c : Char) (h : l.getLast? = some c) : c ∈ l := by
  rw [← List.head?_reverse] at h
  have := List.mem_of_mem_head? (l := l.reverse) (a := c) (by rw [h]; rfl)
  exact (List.mem_reverse).mp this

theorem trimStr_wrap (mid : Str) (hne : mid ≠ [])
    (h1 : ∀ c, mid.head? = some c → isWs c = false)
    (h2 : ∀ c, mid.getLast? = some c → isWs c = false) :
    trimStr ('\n' :: (mid ++ ['\n'])) = mid := by
  rw [trimStr_cons_ws '\n' _ (by decide)]
  unfold trimStr
  have hh : ∀ c, (mid ++ ['\n']).head? = some c → isWs c = false := by
    intro c hc
    cases mid with
    | nil => exact absurd rfl hne
    | cons a t =>
      rw [List.cons_append, List.head?_cons] at hc
      exact (Option.some_inj.mp hc) ▸ h1 a rfl
  rw [dropWhile_head_false _ _ hh, List.reverse_append, List.reverse_singleton,
    List.singleton_append, List.dropWhile_cons,
    show isWs '\n' = true from by decide, if_pos rfl,
    dropWhile_head_false _ _ (fun c hc => h2 c (by rwa [List.head?_reverse] at hc)),
    List.reverse_reverse]

theorem splitNl_no_nl (l : Str) (h : '\n' ∉ l) : splitNl l = [l] := by
  induction l with
  | nil => rfl
  | cons c t ih =>
    have hc : ¬ c = '\n' := fun hh => h (hh ▸ List.mem_cons_self c t)
    have ht : '\n' ∉ t := fun hm => h (List.mem_cons_of_mem c hm)
    simp only [splitNl, if_neg hc, ih ht]

theorem splitNl_append (l t : Str) (h : '\n' ∉ l) :
    splitNl (l ++ '\n' :: t) = l :: splitNl t := by
  induction l with
  | nil => simp [splitNl]
  | cons c r ih =>
    have hc : ¬ c = '\n' := fun hh => h (hh ▸ List.mem_cons_self _ _)
    have hr : '\n' ∉ r := fun hm => h (List.mem_cons_of_mem _ hm)
    rw [List.cons_append]
    simp only [splitNl, if_neg hc]
    rw [ih hr]

theorem splitNl_joinNl (ls : List Str) (hne : ls ≠ []) (h : ∀ l ∈ ls, '\n' ∉ l) :
    splitNl (joinNl ls) = ls := by
  induction ls with
  | nil => exact absurd rfl hne
  | cons l rest ih =>
    cases rest with
    | nil => exact splitNl_no_nl l (h l (List.mem_cons_self _ _))
    | cons l2 r2 =>
      rw [show joinNl (l :: l2 :: r2) = l ++ '\n' :: joinNl (l2 :: r2) from rfl,
        splitNl_append _ _ (h l (List.mem_cons_self _ _)),
        ih (by simp) (fun x hx => h x (List.mem_cons_of_mem _ hx))]

theorem joinNl_ne_nil (ls : List Str) (hne : ls ≠ []) (h : ∀ l ∈ ls, l ≠ []) :
    joinNl ls ≠ [] := by
  cases ls with
  | nil => exact absurd rfl hne
  | cons l rest =>
    cases rest with
    | nil => exact h l (List.mem_cons_self _ _)
    | cons l2 r2 =>
      rw [show joinNl (l :: l2 :: r2) = l ++ '\n' :: joinNl (l2 :: r2) from rfl]
      exact List.append_ne_nil_of_right_ne_nil l (by simp)

theorem joinNl_head? (l : Str) (rest : List Str) (hl : l ≠ []) :
    (joinNl (l :: rest)).head? = l.head? := by
  cases rest with
  | nil => rfl
  | cons l2 r2 =>
    rw [show joinNl (l :: l2 :: r2) = l ++ '\n' :: joinNl (l2 :: r2) from rfl]
    cases l with
    | nil => exact absurd rfl hl
    | cons a t => rw [List.cons_append, List.head?_cons, List.head?_cons]

theorem joinNl_getLast? (ls : List Str) (hne : ls ≠ []) (h : ∀ l ∈ ls, l ≠ []) :
    ∃ last ∈ ls, (joinNl ls).getLast? = last.getLast? := by
  induction ls with
  | nil => exact absurd rfl hne
  | cons l rest ih =>
    cases rest with
    | nil => exact ⟨l, List.mem_cons_self _ _, rfl⟩
    | cons l2 r2 =>
      obtain ⟨last, hmem, hlast⟩ :=
        ih (by simp) (fun x hx => h x (List.mem_cons_of_mem _ hx))
      refine ⟨last, List.mem_cons_of_mem _ hmem, ?_⟩
      rw [show joinNl (l :: l2 :: r2) = l ++ '\n' :: joinNl (l2 :: r2) from rfl,
        List.getLast?_append_of_ne_nil _ (by simp),
        show ('\n' :: joinNl (l2 :: r2)) = ['\n'] ++ joinNl (l2 :: r2) from rfl,
        List.getLast?_append_of_ne_nil _
          (joinNl_ne_nil _ (by simp) (fun x hx => h x (List.mem_cons_of_mem _ hx))),
        hlast]

theorem rustLines_joinNl (ls : List Str) (hne : ls ≠ [])
    (h : ∀ l ∈ ls, '\n' ∉ l ∧ l ≠ [] ∧ l.getLast? ≠ some '\r') :
    rustLines (joinNl ls) = ls := by
  simp only [rustLines, splitNl_joinNl ls hne (fun l hl => (h l hl).1)]
  have hlast : ¬ ls.getLast? = some [] := by
    intro hc
    have hmem : ([] : Str) ∈ ls := by
      cases ls with
      | nil => cases hc
      | cons a t =>
        have := List.getLast?_eq_getLast (a :: t) (by simp)
        rw [this] at hc
        exact (Option.some_inj.mp hc) ▸ List.getLast_mem (by simp)
    exact (h [] hmem).2.1 rfl
  rw [if_neg hlast]
  have : ∀ l ∈ ls, dropCR l = l := by
    intro l hl
    unfold dropCR
    rw [if_neg (h l hl).2.2]
  exact (List.map_congr_left this).trans (List.map_id ls)

theorem splitOnce_header (rest : Str) :
    splitOnce sentinelChars ('1' :: '\n' :: sentinelChars ++ rest) = some (['1', '\n'], rest) := rfl

theorem head?_append_left (l l2 : Str) (h : l ≠ []) : (l ++ l2).head? = l.head? := by
  cases l with
  | nil => exact absurd rfl h
  | cons a t => rw [List.cons_append, List.head?_cons, List.head?_cons]

theorem encode_ne_nil (h : FileHash) (hv : ValidHash h) : FileHash.encode h ≠ [] := by
  intro hn
  have := encode_length h hv
  rw [hn] at this
  cases this

theorem entryLine_length (f : LibraryFile) (hv : ValidHash f.hash) :
    (entryLine f).length = 65 + f.path_in_library.length := by
  unfold entryLine
  rw [List.length_append, encode_length f.hash hv, List.length_cons]
  omega

theorem entryLine_take (f : LibraryFile) (hv : ValidHash f.hash) :
    (entryLine f).take HASH_LENGTH = f.hash.encode := by
  unfold entryLine
  rw [show HASH_LENGTH = (f.hash.encode).length from (encode_length f.hash hv).symm,
    List.take_left]

theorem entryLine_drop (f : LibraryFile) (hv : ValidHash f.hash) :
    (entryLine f).drop HASH_LENGTH = ' ' :: f.path_in_library := by
  unfold entryLine
  rw [show HASH_LENGTH = (f.hash.encode).length from (encode_length f.hash hv).symm,
    List.drop_left]

theorem trimStr_encode (h : FileHash) (hv : ValidHash h) :
    trimStr (FileHash.encode h) = FileHash.encode h :=
  trimStr_eq_self _
    (fun c hc =>
      (encodeBytes_class h.bytes hv.2 c (List.mem_of_mem_head? (Option.mem_def.mpr hc))).2)
    (fun c hc => (encodeBytes_class h.bytes hv.2 c (mem_of_getLast? _ _ hc)).2)

theorem trimStr_space_path (p : Str) (hp : CleanPath p) :
    trimStr (' ' :: p) = p := by
  rw [trimStr_cons_ws ' ' p (by decide)]
  exact trimStr_eq_self p hp.2.1 hp.2.2.1

theorem entryLine_getLast? (f : LibraryFile) (hp : CleanPath f.path_in_library) :
    (entryLine f).getLast? = f.path_in_library.getLast? := by
  unfold entryLine
  rw [List.getLast?_append_of_ne_nil _ (by simp),
    show (' ' :: f.path_in_library) = [' '] ++ f.path_in_library from rfl,
    List.getLast?_append_of_ne_nil _ hp.1]

theorem entryLine_props (f : LibraryFile) (hv : ValidHash f.hash)
    (hp : CleanPath f.path_in_library) :
    '\n' ∉ entryLine f ∧ entryLine f ≠ [] ∧ (entryLine f).getLast? ≠ some '\r' ∧
    (∀ c, (entryLine f).head? = some c → isWs c = false) ∧
    (∀ c, (entryLine f).getLast? = some c → isWs c = false) := by
  refine ⟨?_, ?_, ?_, ?_, ?_⟩
  · intro hmem
    unfold entryLine at hmem
    rcases List.mem_append.mp hmem with hmem | hmem
    · have := (encodeBytes_class f.hash.bytes hv.2 '\n' hmem).2
      exact absurd this (by decide)
    · rcases List.mem_cons.mp hmem with hnl | hmem
      · cases hnl
      · exact hp.2.2.2 hmem
  · intro hnil
    have := entryLine_length f hv
    rw [hnil, List.length_nil] at this
    omega
  · rw [entryLine_getLast? f hp]
    intro hc
    have := hp.2.2.1 '\r' hc
    exact absurd this (by decide)
  · intro c hc
    unfold entryLine at hc
    rw [head?_append_left _ _ (encode_ne_nil f.hash hv)] at hc
    exact (encodeBytes_class f.hash.bytes hv.2 c
      (List.mem_of_mem_head? (Option.mem_def.mpr hc))).2
  · intro c hc
    rw [entryLine_getLast? f hp] at hc
    exact hp.2.2.1 c hc

theorem flatMap_entryLines (es : List LibraryFile) (hne : es ≠ []) :
    es.flatMap (fun f => entryLine f ++ ['\n']) = joinNl (es.map entryLine) ++ ['\n'] := by
  induction es with
  | nil => exact absurd rfl hne
  | cons f rest ih =>
    cases rest with
    | nil => simp [joinNl]
    | cons f2 r2 =>
      rw [List.flatMap_cons, ih (by simp)]
      simp only [List.map_cons]
      rw [show joinNl (entryLine f :: entryLine f2 :: List.map entryLine r2)
          = entryLine f ++ '\n' :: joinNl (entryLine f2 :: List.map entryLine r2) from rfl]
      simp [List.append_assoc]

theorem parseLines_entryLines (es : List LibraryFile)
    (h : ∀ f ∈ es, ValidHash f.hash ∧ CleanPath f.path_in_library) :
    parseLines (es.map entryLine) = .ok es := by
  induction es with
  | nil => rfl
  | cons f rest ih =>
    obtain ⟨hv, hp⟩ := h f (List.mem_cons_self _ _)
    have hlen : ¬ (entryLine f).length < HASH_LENGTH := by
      rw [entryLine_length f hv]
      unfold HASH_LENGTH
      omega
    simp only [List.map_cons, parseLines, if_neg hlen, entryLine_take f hv,
      trimStr_encode f.hash hv, decode_encode f.hash hv, entryLine_drop f hv,
      trimStr_space_path _ hp, ih (fun x hx => h x (List.mem_cons_of_mem _ hx))]

/-- Core round-trip at the level of the index file's text: parsing the
persisted serialization of an entry list recovers exactly that list (for
entries with 32-byte hashes and clean paths). -/
theorem read_persist_roundtrip (es : List LibraryFile)
    (h : ∀ f ∈ es, ValidHash f.hash ∧ CleanPath f.path_in_library) :
    read_hash_content (persistContent es) = .ok es := by
  cases hes : es with
  | nil => decide
  | cons f0 rest =>
    have hne : es ≠ [] := by rw [hes]; simp
    rw [← hes]
    have hlines : ∀ l ∈ es.map entryLine,
        '\n' ∉ l ∧ l ≠ [] ∧ l.getLast? ≠ some '\r' ∧
        (∀ c, l.head? = some c → isWs c = false) ∧
        (∀ c, l.getLast? = some c → isWs c = false) := by
      intro l hl
      obtain ⟨f, hf, rfl⟩ := List.mem_map.mp hl
      exact entryLine_props f (h f hf).1 (h f hf).2
    have hlne : es.map entryLine ≠ [] := by rw [hes]; simp
    unfold persistContent read_hash_content
    rw [show ('\n' :: es.flatMap (fun f => entryLine f ++ ['\n']))
        = '\n' :: (joinNl (es.map entryLine) ++ ['\n']) from by
        rw [flatMap_entryLines es hne],
      splitOnce_header]
    show (match parseU16 (trimStr ['1', '\n']) with
      | none => Outcome.err .corruptVersion
      | some v =>
        if v > SUPPORTED_VERSION_MAX then Outcome.err (.unsupportedVersion v)
        else parseLines (rustLines (trimStr ('\n' :: (joinNl (es.map entryLine) ++ ['\n'])))))
      = Outcome.ok es
    rw [show parseU16 (trimStr ['1', '\n']) = some 1 from rfl]
    show parseLines (rustLines (trimStr ('\n' :: (joinNl (es.map entryLine) ++ ['\n'])))) = .ok es
    rw [trimStr_wrap _ (joinNl_ne_nil _ hlne (fun l hl => (hlines l hl).2.1))
        (fun c hc => by
          rw [hes, List.map_cons] at hc
          rw [joinNl_head? _ _
            ((hlines (entryLine f0) (by rw [hes]; simp)).2.1)] at hc
          exact (hlines (entryLine f0) (by rw [hes]; simp)).2.2.2.1 c hc)
        (fun c hc => by
          obtain ⟨last, hmem, hlast⟩ :=
            joinNl_getLast? (es.map entryLine) hlne (fun l hl => (hlines l hl).2.1)
          rw [hlast] at hc
          exact (hlines last hmem).2.2.2.2 c hc),
      rustLines_joinNl _ hlne (fun l hl =>
        ⟨(hlines l hl).1, (hlines l hl).2.1, (hlines l hl).2.2.1⟩),
      parseLines_entryLines es h]

theorem fsLookup_setFile (fs : FS) (p : Str) (d : FileData) :
    fsLookup (setFile fs p d) p = some d := by
  unfold fsLookup setFile
  simp [lookupFile]

/-- C3 (counterexample): an entry whose path contains a newline persists
fine but does not load back: the reload panics instead of returning the
entry set, so persist-then-load does not yield the original entries for
every in-memory entry set. -/
theorem c3_newline_path_counterexample :
    (persist_to_disk nlLib fsNl).2 = .ok () ∧
    read_from_disk outRootC (persist_to_disk nlLib fsNl).1 = .panicked := by decide

/-- C3 (amended): for every entry set whose hashes are 32-byte digests
and whose paths are nonempty, contain no newline, and neither start nor
end with whitespace, persisting the library and loading from the same
output root yields exactly the same entry list (hence the same set of
hash/path pairs). -/
theorem c3_persist_load_roundtrip (root : Str) (fs : FS) (lib : Library)
    (hmeta : lib.meta_root = pjoin root metaDirName)
    (hex : (fsLookup fs (pjoin lib.meta_root hashesName)).isSome)
    (hv : ∀ f ∈ lib.files, ValidHash f.hash ∧ CleanPath f.path_in_library) :
    ∃ fs2 : FS, persist_to_disk lib fs = (fs2, .ok ()) ∧
      ∃ lib2 : Library, read_from_disk root fs2 = .ok (lib2, fs2) ∧
        lib2.files = lib.files := by
  obtain ⟨orr, mr, fls⟩ := lib
  simp only at hmeta hex hv
  subst hmeta
  obtain ⟨d, hd⟩ := Option.isSome_iff_exists.mp hex
  refine ⟨setFile fs (pjoin (pjoin root metaDirName) hashesName)
    ⟨persistContent fls, d.created⟩, ?_, ?_⟩
  · simp only [persist_to_disk, hd]
  · refine ⟨⟨root, pjoin root metaDirName, fls⟩, ?_, rfl⟩
    simp only [read_from_disk, fsLookup_setFile, read_persist_roundtrip fls hv]

/-- C3 witness: the round trip at a concrete one-entry library. -/
theorem c3_witness :
    ∃ fs2 : FS, persist_to_disk cleanLib fsNl = (fs2, .ok ()) ∧
      ∃ lib2 : Library, read_from_disk outRootC fs2 = .ok (lib2, fs2) ∧
        lib2.files = cleanLib.files :=
  c3_persist_load_roundtrip outRootC fsNl cleanLib rfl (by decide)
    (by
      intro f hf
      rw [show cleanLib.files = [⟨zeroHash, "a.jpg".data⟩] from rfl,
        List.mem_singleton] at hf
      subst hf
      refine ⟨⟨by decide, by decide⟩, by decide, ?_, ?_, by decide⟩
      · intro c hc
        rw [show (("a.jpg".data : Str)).head? = some 'a' from rfl] at hc
        rw [← Option.some_inj.mp hc]
        decide
      · intro c hc
        rw [show (("a.jpg".data : Str)).getLast? = some 'g' from rfl] at hc
        rw [← Option.some_inj.mp hc]
        decide)

/-- C4 (counterexample): on a fresh output root whose metadata directory
does not yet exist, the index file is absent and yet the load fails with
an IO error (nothing ever creates the metadata directory, and
`File::create` does not create parent directories). -/
theorem c4_missing_meta_dir_counterexample :
    fsLookup fsNoMeta (hashes_path outRootC) = none ∧
    read_from_disk outRootC fsNoMeta = .err .ioError := by decide

/-- C4 (amended): when the metadata directory exists and the index file
does not, the load creates the file empty and returns a library with an
empty entry collection, without error. -/
theorem c4_bootstrap (root : Str) (fs : FS)
    (habs : fsLookup fs (hashes_path root) = none)
    (hdir : pjoin root metaDirName ∈ fs.dirs) :
    read_from_disk root fs =
      .ok (⟨root, pjoin root metaDirName, []⟩, setFile fs (hashes_path root) ⟨[], none⟩) ∧
    fsLookup (setFile fs (hashes_path root) ⟨[], none⟩) (hashes_path root) = some ⟨[], none⟩ := by
  constructor
  · simp only [read_from_disk]
    rw [show pjoin (pjoin root metaDirName) hashesName = hashes_path root from rfl, habs,
      if_pos hdir]
  · exact fsLookup_setFile fs _ _

/-- C4 witness: the amended bootstrap behaviour at a concrete fresh
filesystem whose metadata directory exists. -/
theorem c4_witness :
    read_from_disk outRootC fsReach0 =
      .ok (⟨outRootC, pjoin outRootC metaDirName, []⟩,
        setFile fsReach0 (hashes_path outRootC) ⟨[], none⟩) ∧
    fsLookup (setFile fsReach0 (hashes_path outRootC) ⟨[], none⟩) (hashes_path outRootC)
      = some ⟨[], none⟩ :=
  c4_bootstrap outRootC fsReach0 (by decide) (by decide)

theorem decode_ne_panicked (s : Str) : FileHash.decode s ≠ .panicked := by
  unfold FileHash.decode
  split
  · simp
  · split <;> simp

theorem parseLines_err (ls : List Str)
    (hlong : ∀ l ∈ ls, HASH_LENGTH ≤ l.length)
    (hbad : ∃ l ∈ ls, ∃ e, FileHash.decode (trimStr (l.take HASH_LENGTH)) = .err e) :
    ∃ e, parseLines ls = .err e := by
  induction ls with
  | nil =>
    obtain ⟨l, hl, _⟩ := hbad
    cases hl
  | cons l rest ih =>
    have hnl : ¬ l.length < HASH_LENGTH := by
      have := hlong l (List.mem_cons_self _ _)
      omega
    rcases hbad with ⟨l2, hl2, e2, he2⟩
    rcases List.mem_cons.mp hl2 with rfl | hmem
    · exact ⟨e2, by simp only [parseLines, if_neg hnl, he2]⟩
    · cases hdec : FileHash.decode (trimStr (l.take HASH_LENGTH)) with
      | err e => exact ⟨e, by simp only [parseLines, if_neg hnl, hdec]⟩
      | panicked => exact absurd hdec (decode_ne_panicked _)
      | ok hh =>
        obtain ⟨e, he⟩ := ih (fun x hx => hlong x (List.mem_cons_of_mem _ hx))
          ⟨l2, hmem, e2, he2⟩
        exact ⟨e, by simp only [parseLines, if_neg hnl, hdec, he]⟩

/-- C5 (counterexample): a body line shorter than the hash length makes
the load panic (`split_at` out of bounds) instead of failing with a
corrupt-index error. -/
theorem c5_short_line_counterexample :
    read_hash_content shortLineContent = .panicked := by decide

/-- C5 (amended): an index file missing the sentinel fails the load with
the corrupt-index error, and a body line of at least the hash length
whose hash segment does not decode makes the whole load fail with an
error (no partial load); body lines shorter than the hash length instead
panic. -/
theorem c5_corruption_detection :
    (∀ content, splitOnce sentinelChars content = none →
       read_hash_content content = .err .corruptSentinel) ∧
    (∀ content v hs n, splitOnce sentinelChars content = some (v, hs) →
       parseU16 (trimStr v) = some n → n ≤ SUPPORTED_VERSION_MAX →
       (∀ l ∈ rustLines (trimStr hs), HASH_LENGTH ≤ l.length) →
       (∃ l ∈ rustLines (trimStr hs), ∃ e,
         FileHash.decode (trimStr (l.take HASH_LENGTH)) = .err e) →
       ∃ e, read_hash_content content = .err e) := by
  constructor
  · intro content hsp
    unfold read_hash_content
    rw [hsp]
  · intro content v hs n hsp hpar hn hlong hbad
    obtain ⟨e, he⟩ := parseLines_err _ hlong hbad
    refine ⟨e, ?_⟩
    unfold read_hash_content
    rw [hsp]
    show (match parseU16 (trimStr v) with
      | none => Outcome.err .corruptVersion
      | some vv =>
        if vv > SUPPORTED_VERSION_MAX then Outcome.err (.unsupportedVersion vv)
        else parseLines (rustLines (trimStr hs))) = .err e
    rw [hpar]
    show (if n > SUPPORTED_VERSION_MAX then Outcome.err (.unsupportedVersion n)
      else parseLines (rustLines (trimStr hs))) = .err e
    rw [if_neg (by omega), he]

/-- C5 witness: the amended behaviour at concrete inputs — a sentinel-free
file, and a file whose single body line is 64 non-hex characters. -/
theorem c5_witness :
    read_hash_content ['x'] = .err .corruptSentinel ∧
    (∃ e, read_hash_content zContent = .err e) := by
  constructor
  · exact c5_corruption_detection.1 ['x'] (by decide)
  · exact c5_corruption_detection.2 zContent ['1', '\n'] ('\n' :: List.replicate 64 'z') 1
      rfl rfl (by decide) (by decide)
      ⟨List.replicate 64 'z', by decide, .badHex, by decide⟩

/-- C6: when the version line parses as an integer `n`, a version above
the supported maximum fails the whole load with the unsupported-version
error (no entries are returned), and any version at or below the maximum
passes the gate, the load proceeding to the body lines. -/
theorem c6_version_gate (content v hs : Str) (n : Nat)
    (hsp : splitOnce sentinelChars content = some (v, hs))
    (hpar : parseU16 (trimStr v) = some n) :
    (SUPPORTED_VERSION_MAX < n → read_hash_content content = .err (.unsupportedVersion n)) ∧
    (n ≤ SUPPORTED_VERSION_MAX →
      read_hash_content content = parseLines (rustLines (trimStr hs))) := by
  constructor <;> intro hn <;> unfold read_hash_content <;> rw [hsp] <;>
    · show (match parseU16 (trimStr v) with
        | none => Outcome.err .corruptVersion
        | some vv =>
          if vv > SUPPORTED_VERSION_MAX then Outcome.err (.unsupportedVersion vv)
          else parseLines (rustLines (trimStr hs))) = _
      rw [hpar]
      show (if n > SUPPORTED_VERSION_MAX then Outcome.err (.unsupportedVersion n)
        else parseLines (rustLines (trimStr hs))) = _
      first
      | rw [if_pos (by omega)]
      | rw [if_neg (by omega)]

/-- C6 witness: version 2 is rejected with the unsupported-version error;
version 1 passes the gate and loads the (empty) body. -/
theorem c6_witness :
    read_hash_content ver2Content = .err (.unsupportedVersion 2) ∧
    read_hash_content ver1Content = parseLines (rustLines (trimStr ['\n'])) := by
  constructor
  · exact (c6_version_gate ver2Content ['2', '\n'] ['\n'] 2 (by decide) (by decide)).1
      (by decide)
  · exact (c6_version_gate ver1Content ['1', '\n'] ['\n'] 1 (by decide) (by decide)).2
      (by decide)

/-- C10: `persist_to_disk` panics exactly when the `hashes` file is
absent, and for every library obtained from a successful
`read_from_disk` on the same filesystem, the file is present (the load
creates it when missing), so the subsequent persist never panics. -/
theorem c10_persist_assertion :
    (∀ lib fs, fsLookup fs (pjoin lib.meta_root hashesName) = none →
       persist_to_disk lib fs = (fs, .panicked)) ∧
    (∀ root fs lib fs2, read_from_disk root fs = .ok (lib, fs2) →
       (fsLookup fs2 (pjoin lib.meta_root hashesName)).isSome ∧
       (persist_to_disk lib fs2).2 = .ok ()) := by
  constructor
  · intro lib fs h
    simp only [persist_to_disk, h]
  · intro root fs lib fs2 h
    simp only [read_from_disk] at h
    split at h
    · rename_i d hl
      split at h
      · rename_i es hr
        injection h with h1
        rw [Prod.mk.injEq] at h1
        obtain ⟨h2, h3⟩ := h1
        subst h3
        rw [← h2]
        refine ⟨?_, ?_⟩
        · show (fsLookup fs (pjoin (pjoin root metaDirName) hashesName)).isSome = true
          rw [hl]
          rfl
        · show (persist_to_disk ⟨root, pjoin root metaDirName, es⟩ fs).2 = .ok ()
          simp only [persist_to_disk, hl]
      · exact Outcome.noConfusion h
      · exact Outcome.noConfusion h
    · rename_i hl
      split at h
      · injection h with h1
        rw [Prod.mk.injEq] at h1
        obtain ⟨h2, h3⟩ := h1
        subst h3
        rw [← h2]
        refine ⟨?_, ?_⟩
        · show (fsLookup (setFile fs (pjoin (pjoin root metaDirName) hashesName) ⟨[], none⟩)
            (pjoin (pjoin root metaDirName) hashesName)).isSome = true
          rw [fsLookup_setFile]
          rfl
        · show (persist_to_disk ⟨root, pjoin root metaDirName, []⟩
            (setFile fs (pjoin (pjoin root metaDirName) hashesName) ⟨[], none⟩)).2 = .ok ()
          simp only [persist_to_disk, fsLookup_setFile]
      · exact Outcome.noConfusion h

/-- C10 witness: the panic case and the load-then-persist case at
concrete states. -/
theorem c10_witness :
    persist_to_disk libEmptyC fsNoMeta = (fsNoMeta, .panicked) ∧
    ((fsLookup fsReach1 (pjoin libEmptyC.meta_root hashesName)).isSome ∧
      (persist_to_disk libEmptyC fsReach1).2 = .ok ()) := by
  constructor
  · exact c10_persist_assertion.1 libEmptyC fsNoMeta (by decide)
  · exact c10_persist_assertion.2 outRootC fsReach0 libEmptyC fsReach1 (by decide)

theorem process_inputs_eq (hashFn : Str → FileHash) (lib : Library) (fs : FS) :
    ∀ inputs : List Str, (∀ p ∈ inputs, (fsLookup fs p).isSome) →
      process_inputs hashFn lib fs inputs = .ok (lib, specNewFiles hashFn lib fs inputs) := by
  intro inputs
  induction inputs with
  | nil => intro _; rfl
  | cons p rest ih =>
    intro h
    obtain ⟨d, hd⟩ := Option.isSome_iff_exists.mp (h p (List.mem_cons_self _ _))
    have ihr := ih (fun q hq => h q (List.mem_cons_of_mem _ hq))
    simp only [process_inputs, FileHash.from_file, hd, ihr, specNewFiles,
      List.filterMap_cons, Option.some_bind]
    by_cases hany : lib.files.any (fun f => f.hash = hashFn d.content) = true
    · simp [hany]
    · rw [Bool.not_eq_true] at hany
      simp [hany]

/-- C2: `check_new` returns exactly the candidates whose computed content
hash matches no current entry (membership by hash, never by path),
silently skipping the rest and leaving the entry collection unchanged;
in particular a byte-identical copy of an already-indexed file yields an
empty result. -/
theorem c2_check_new (hashFn : Str → FileHash) (lib : Library) (fs : FS)
    (inputs : List Str) (h : ∀ p ∈ inputs, (fsLookup fs p).isSome) :
    process_inputs hashFn lib fs inputs = .ok (lib, specNewFiles hashFn lib fs inputs) ∧
    (∀ q d, fsLookup fs q = some d →
      (∃ f ∈ lib.files, f.hash = hashFn d.content) →
      process_inputs hashFn lib fs [q] = .ok (lib, [])) := by
  refine ⟨process_inputs_eq hashFn lib fs inputs h, ?_⟩
  intro q d hq hex
  rw [process_inputs_eq hashFn lib fs [q] (by
    intro p hp
    rcases List.mem_cons.mp hp with rfl | hp
    · rw [hq]; rfl
    · cases hp)]
  have hany : lib.files.any (fun f => f.hash = hashFn d.content) = true := by
    rw [List.any_eq_true]
    obtain ⟨f, hf, he⟩ := hex
    exact ⟨f, hf, by simp [he]⟩
  unfold specNewFiles
  simp only [List.filterMap_cons, List.filterMap_nil, hq, Option.some_bind, hany,
    if_pos rfl, if_true]

/-- C2 witness: concrete instance — a library indexing content `['x']`
and a byte-identical candidate under a different path. -/
theorem c2_witness :
    process_inputs testHashFn libDup fsDup ["out/a".data] = .ok (libDup,
      specNewFiles testHashFn libDup fsDup ["out/a".data]) ∧
    process_inputs testHashFn libDup fsDup ["out/a".data] = .ok (libDup, []) := by
  have h := c2_check_new testHashFn libDup fsDup ["out/a".data] (by decide)
  refine ⟨h.1, ?_⟩
  exact h.2 "out/a".data ⟨['x'], some 0⟩ (by decide)
    ⟨⟨testHashFn ['x'], "a".data⟩, by decide, by decide⟩

theorem process_inputs_ok_lib (hashFn : Str → FileHash) (lib : Library) (fs : FS) :
    ∀ (inputs : List Str) (l : Library) (nf : List UnsortedFile),
      process_inputs hashFn lib fs inputs = .ok (l, nf) → l = lib := by
  intro inputs
  induction inputs with
  | nil =>
    intro l nf h
    injection h with h1
    rw [Prod.mk.injEq] at h1
    exact h1.1.symm
  | cons p rest ih =>
    intro l nf h
    simp only [process_inputs] at h
    split at h
    · exact Outcome.noConfusion h
    · exact Outcome.noConfusion h
    · cases hrest : process_inputs hashFn lib fs rest with
      | ok pr =>
        obtain ⟨lib1, fls⟩ := pr
        rw [hrest] at h
        injection h with h1
        rw [Prod.mk.injEq] at h1
        rw [← h1.1]
        exact ih lib1 fls hrest
      | err e =>
        rw [hrest] at h
        exact Outcome.noConfusion h
      | panicked =>
        rw [hrest] at h
        exact Outcome.noConfusion h

theorem process_inputs_ok_new (hashFn : Str → FileHash) (lib : Library) (fs : FS) :
    ∀ (inputs : List Str) (l : Library) (nf : List UnsortedFile),
      process_inputs hashFn lib fs inputs = .ok (l, nf) →
      ∀ u ∈ nf, ∀ f ∈ lib.files, f.hash ≠ u.hash := by
  intro inputs
  induction inputs with
  | nil =>
    intro l nf h u hu
    injection h with h1
    rw [Prod.mk.injEq] at h1
    rw [← h1.2] at hu
    cases hu
  | cons p rest ih =>
    intro l nf h u hu f hf
    simp only [process_inputs] at h
    split at h
    · exact Outcome.noConfusion h
    · exact Outcome.noConfusion h
    · rename_i hh hfrom
      cases hrest : process_inputs hashFn lib fs rest with
      | ok pr =>
        obtain ⟨lib1, fls⟩ := pr
        rw [hrest] at h
        injection h with h1
        rw [Prod.mk.injEq] at h1
        rw [← h1.2] at hu
        by_cases hany : lib.files.any (fun g => g.hash = hh) = true
        · rw [if_pos hany] at hu
          exact ih lib1 fls hrest u hu f hf
        · rw [Bool.not_eq_true] at hany
          rw [if_neg (by rw [hany]; simp)] at hu
          rcases List.mem_cons.mp hu with rfl | hu2
          · show f.hash ≠ hh
            intro he
            rw [List.any_eq_false] at hany
            exact hany f hf (by simp [he])
          · exact ih lib1 fls hrest u hu2 f hf
      | err e =>
        rw [hrest] at h
        exact Outcome.noConfusion h
      | panicked =>
        rw [hrest] at h
        exact Outcome.noConfusion h

theorem sort_files_cons (lib : Library) (fs : FS) (x : UnsortedFile)
    (rest : List UnsortedFile) (p : SortPolicy) :
    sort_files lib fs (x :: rest) p =
      (match sortOne lib fs x p with
       | (lib1, fs1, .ok _) => sort_files lib1 fs1 rest p
       | r => r) := rfl

theorem sortOne_not_ok (lib : Library) (fs : FS) (f : UnsortedFile) (p : SortPolicy) :
    (sortOne lib fs f p).2.2 ≠ .ok () → (sortOne lib fs f p).1 = lib := by
  cases p
  · cases hd : fsLookup fs f.path with
    | none => intro _; simp [sortOne, hd]
    | some d =>
      cases hc : d.created with
      | none => intro _; simp [sortOne, hd, hc]
      | some t =>
        cases hb : fileName f.path with
        | none => intro _; simp [sortOne, hd, hc, hb]
        | some base =>
          cases hrn : renameFile (createDirAll fs (pjoin lib.output_root (dateDir t)))
              f.path (pjoin lib.output_root (dateDir t ++ '/' :: base)) with
          | none => intro _; simp [sortOne, hd, hc, hb, hrn]
          | some fs2 =>
            intro h
            exact absurd (by simp [sortOne, hd, hc, hb, hrn]) h
  · cases hb : fileName f.path with
    | none => intro _; simp [sortOne, hb]
    | some fname =>
      cases hrn : renameFile fs f.path (pjoin lib.output_root fname) with
      | none => intro _; simp [sortOne, hb, hrn]
      | some fs1 =>
        intro h
        exact absurd (by simp [sortOne, hb, hrn]) h

theorem sortOne_ok (lib : Library) (fs : FS) (f : UnsortedFile) (p : SortPolicy) :
    (sortOne lib fs f p).2.2 = .ok () →
    ∃ q, (sortOne lib fs f p).1.files = lib.files ++ [⟨f.hash, q⟩] := by
  cases p
  · cases hd : fsLookup fs f.path with
    | none => intro h; exact absurd h (by simp [sortOne, hd])
    | some d =>
      cases hc : d.created with
      | none => intro h; exact absurd h (by simp [sortOne, hd, hc])
      | some t =>
        cases hb : fileName f.path with
        | none => intro h; exact absurd h (by simp [sortOne, hd, hc, hb])
        | some base =>
          cases hrn : renameFile (createDirAll fs (pjoin lib.output_root (dateDir t)))
              f.path (pjoin lib.output_root (dateDir t ++ '/' :: base)) with
          | none => intro h; exact absurd h (by simp [sortOne, hd, hc, hb, hrn])
          | some fs2 =>
            intro _
            exact ⟨dateDir t ++ '/' :: base, by simp [sortOne, hd, hc, hb, hrn]⟩
  · cases hb : fileName f.path with
    | none => intro h; exact absurd h (by simp [sortOne, hb])
    | some fname =>
      cases hrn : renameFile fs f.path (pjoin lib.output_root fname) with
      | none => intro h; exact absurd h (by simp [sortOne, hb, hrn])
      | some fs1 =>
        intro _
        exact ⟨fname, by simp [sortOne, hb, hrn]⟩

theorem sort_files_append (xs ys : List UnsortedFile) :
    ∀ (lib : Library) (fs : FS) (p : SortPolicy),
      sort_files lib fs (xs ++ ys) p =
        (match sort_files lib fs xs p with
         | (lib1, fs1, .ok _) => sort_files lib1 fs1 ys p
         | r => r) := by
  induction xs with
  | nil => intro lib fs p; rfl
  | cons x xs ih =>
    intro lib fs p
    rw [List.cons_append, sort_files_cons, sort_files_cons lib fs x xs p]
    rcases hso : sortOne lib fs x p with ⟨lib1, fs1, o⟩
    cases o with
    | ok u => cases u; exact ih lib1 fs1 p
    | err e => rfl
    | panicked => rfl

theorem sort_files_ok_files (xs : List UnsortedFile) :
    ∀ (lib : Library) (fs : FS) (p : SortPolicy) (l1 : Library) (f1 : FS),
      sort_files lib fs xs p = (l1, f1, .ok ()) →
      ∃ es, l1.files = lib.files ++ es ∧
        es.map LibraryFile.hash = xs.map UnsortedFile.hash := by
  induction xs with
  | nil =>
    intro lib fs p l1 f1 h
    have h' : ((lib, fs, (.ok () : Outcome Unit)) : Library × FS × Outcome Unit)
        = (l1, f1, .ok ()) := h
    rw [Prod.mk.injEq, Prod.mk.injEq] at h'
    exact ⟨[], by rw [← h'.1]; simp, rfl⟩
  | cons x rest ih =>
    intro lib fs p l1 f1 h
    rw [sort_files_cons] at h
    rcases hso : sortOne lib fs x p with ⟨lib1, fs1, o⟩
    rw [hso] at h
    cases o with
    | ok u =>
      cases u
      obtain ⟨q, hq⟩ := sortOne_ok lib fs x p (by rw [hso])
      rw [hso] at hq
      obtain ⟨es, hes, hmap⟩ := ih lib1 fs1 p l1 f1 h
      refine ⟨⟨x.hash, q⟩ :: es, ?_, by simp [hmap]⟩
      rw [hes, hq, List.append_assoc]
      rfl
    | err e => simp at h
    | panicked => simp at h

theorem sort_files_nodup (nf : List UnsortedFile) :
    ∀ (lib : Library) (fs : FS) (p : SortPolicy),
      (lib.files.map LibraryFile.hash).Nodup →
      (nf.map UnsortedFile.hash).Nodup →
      (∀ u ∈ nf, ∀ f ∈ lib.files, f.hash ≠ u.hash) →
      ((sort_files lib fs nf p).1.files.map LibraryFile.hash).Nodup := by
  induction nf with
  | nil => intro lib fs p h1 _ _; exact h1
  | cons u rest ih =>
    intro lib fs p h1 h2 h3
    rw [sort_files_cons]
    rcases hso : sortOne lib fs u p with ⟨lib1, fs1, o⟩
    have h2' : (rest.map UnsortedFile.hash).Nodup := by
      rw [List.map_cons, List.nodup_cons] at h2
      exact h2.2
    have h2head : u.hash ∉ rest.map UnsortedFile.hash := by
      rw [List.map_cons, List.nodup_cons] at h2
      exact h2.1
    cases o with
    | ok uu =>
      cases uu
      obtain ⟨q, hq⟩ := sortOne_ok lib fs u p (by rw [hso])
      rw [hso] at hq
      show ((sort_files lib1 fs1 rest p).1.files.map LibraryFile.hash).Nodup
      apply ih lib1 fs1 p
      · rw [hq, List.map_append, List.nodup_append]
        refine ⟨h1, by simp, ?_⟩
        intro x hx hx2
        simp only [List.map_cons, List.map_nil, List.mem_singleton] at hx2
        obtain ⟨f, hf, hfx⟩ := List.mem_map.mp hx
        exact h3 u (List.mem_cons_self _ _) f hf (by rw [hfx, hx2])
      · exact h2'
      · intro v hv f hf
        rw [hq] at hf
        rcases List.mem_append.mp hf with hf | hf
        · exact h3 v (List.mem_cons_of_mem _ hv) f hf
        · rw [List.mem_singleton] at hf
          rw [hf]
          show u.hash ≠ v.hash
          intro he
          exact h2head (he ▸ List.mem_map_of_mem UnsortedFile.hash hv)
    | err e =>
      have hnl := sortOne_not_ok lib fs u p (by rw [hso]; simp)
      rw [hso] at hnl
      show (lib1.files.map LibraryFile.hash).Nodup
      rw [show lib1 = lib from hnl]
      exact h1
    | panicked =>
      have hnl := sortOne_not_ok lib fs u p (by rw [hso]; simp)
      rw [hso] at hnl
      show (lib1.files.map LibraryFile.hash).Nodup
      rw [show lib1 = lib from hnl]
      exact h1

/-- C1 (counterexample): two byte-identical candidates in the same batch
are both returned by `check_new` (the membership test only consults the
already-committed entries) and both placed by `place`, so a reachable
state holds two entries with equal content hashes. -/
theorem c1_same_batch_counterexample :
    Reach testHashFn libDup fsDup ∧ ¬ (libDup.files.map LibraryFile.hash).Nodup := by
  constructor
  · have h1 : read_from_disk outRootC fsReach0 = .ok (libEmptyC, fsReach1) := by decide
    have h2 : process_inputs testHashFn libEmptyC fsReach1 ["in/a".data, "in/b".data]
        = .ok (libEmptyC, dupBatch) := by decide
    exact Reach.imported libEmptyC fsReach1 ["in/a".data, "in/b".data] .moveToRoot
      libEmptyC dupBatch (Reach.load outRootC fsReach0 libEmptyC fsReach1 h1) h2
  · decide

/-- C1 (amended): starting from a load whose index is duplicate-free,
any sequence of `check_new` / `place` rounds in which each placed batch
is the output of `check_new` on the current state and has pairwise
distinct content hashes keeps the entry collection free of duplicate
hashes. -/
theorem c1_no_duplicate_hashes (hashFn : Str → FileHash) (lib : Library) (fs : FS)
    (h : ReachDistinct hashFn lib fs) : (lib.files.map LibraryFile.hash).Nodup := by
  induction h with
  | load root fs0 lib1 fs1 hread hnd => exact hnd
  | imported lib0 fs0 inputs policy lib1 nf hr hproc hnd ih =>
    have hl : lib1 = lib0 := process_inputs_ok_lib hashFn lib0 fs0 inputs lib1 nf hproc
    subst hl
    exact sort_files_nodup nf lib1 fs0 policy ih hnd
      (fun u hu f hf => process_inputs_ok_new hashFn lib1 fs0 inputs lib1 nf hproc u hu f hf)

/-- C1 witness: the amended invariant at a concrete reachable state. -/
theorem c1_witness : (libEmptyC.files.map LibraryFile.hash).Nodup :=
  c1_no_duplicate_hashes testHashFn libEmptyC fsReach1
    (ReachDistinct.load outRootC fsReach0 libEmptyC fsReach1 (by decide) (by decide))

/-- C9: `sort_files` processes its batch strictly in input order; an
entry is appended only after that file's move succeeds; and when file k
fails, files 1..k-1 stay moved and recorded (one appended entry per
input, hashes in order) while file k and all later files are neither
moved nor recorded, with no rollback. -/
theorem c9_partial_batch_failure :
    (∀ (lib : Library) (fs : FS) (xs ys : List UnsortedFile) (p : SortPolicy),
       sort_files lib fs (xs ++ ys) p =
         (match sort_files lib fs xs p with
          | (lib1, fs1, .ok _) => sort_files lib1 fs1 ys p
          | r => r)) ∧
    (∀ (lib : Library) (fs : FS) (f : UnsortedFile) (p : SortPolicy),
       (sortOne lib fs f p).2.2 ≠ .ok () → (sortOne lib fs f p).1 = lib) ∧
    (∀ (lib : Library) (fs : FS) (f : UnsortedFile) (p : SortPolicy),
       (sortOne lib fs f p).2.2 = .ok () →
       ∃ q, (sortOne lib fs f p).1.files = lib.files ++ [⟨f.hash, q⟩]) ∧
    (∀ (lib : Library) (fs : FS) (xs : List UnsortedFile) (p : SortPolicy)
       (l1 : Library) (f1 : FS),
       sort_files lib fs xs p = (l1, f1, .ok ()) →
       ∃ es, l1.files = lib.files ++ es ∧
         es.map LibraryFile.hash = xs.map UnsortedFile.hash) ∧
    (∀ (lib : Library) (fs : FS) (xs : List UnsortedFile) (y : UnsortedFile)
       (zs : List UnsortedFile) (p : SortPolicy) (l1 : Library) (f1 : FS)
       (l2 : Library) (f2 : FS) (e : PoError),
       sort_files lib fs xs p = (l1, f1, .ok ()) →
       sortOne l1 f1 y p = (l2, f2, .err e) →
       sort_files lib fs (xs ++ y :: zs) p = (l2, f2, .err e) ∧ l2.files = l1.files) := by
  refine ⟨fun lib fs xs ys p => sort_files_append xs ys lib fs p, sortOne_not_ok, sortOne_ok,
    fun lib fs xs p l1 f1 => sort_files_ok_files xs lib fs p l1 f1, ?_⟩
  intro lib fs xs y zs p l1 f1 l2 f2 e hxs hy
  constructor
  · rw [sort_files_append xs (y :: zs) lib fs p, hxs]
    show sort_files l1 f1 (y :: zs) p = (l2, f2, .err e)
    rw [sort_files_cons, hy]
  · have hnl := sortOne_not_ok l1 f1 y p (by rw [hy]; simp)
    rw [hy] at hnl
    rw [show l2 = l1 from hnl]

/-- C9 witness: a batch whose first file's source is missing — the move
fails, nothing is recorded, and the second file is never processed. -/
theorem c9_witness :
    sort_files libEmptyC fsReach1 ([] ++ missFile :: [missFile]) .moveToRoot
      = (libEmptyC, fsReach1, .err .ioError) ∧ libEmptyC.files = libEmptyC.files :=
  c9_partial_batch_failure.2.2.2.2 libEmptyC fsReach1 [] missFile [missFile] .moveToRoot
    libEmptyC fsReach1 libEmptyC fsReach1 .ioError (by decide) (by decide)

/-- C8: under the `Date` policy, a file whose metadata carries a creation
timestamp is recorded at `year/month/day/basename` (components in plain
decimal, from the proleptic-Gregorian civil date of the timestamp), the
directory chain is created before the move, and a missing creation
timestamp fails that file's placement with the metadata error. -/
theorem c8_date_policy :
    (∀ (lib : Library) (fs : FS) (f : UnsortedFile) (d : FileData) (t : Nat) (base : Str),
       fsLookup fs f.path = some d → d.created = some t → fileName f.path = some base →
       (sortOne lib fs f .date).2.2 = .ok () ∧
       (sortOne lib fs f .date).1.files
         = lib.files ++ [⟨f.hash, dateDir t ++ '/' :: base⟩] ∧
       pjoin lib.output_root (dateDir t) ∈ (sortOne lib fs f .date).2.1.dirs) ∧
    (∀ (lib : Library) (fs : FS) (f : UnsortedFile) (d : FileData),
       fsLookup fs f.path = some d → d.created = none →
       sortOne lib fs f .date = (lib, fs, .err .metadataError)) := by
  constructor
  · intro lib fs f d t base hd hc hb
    have hfiles : (createDirAll fs (pjoin lib.output_root (dateDir t))).files = fs.files := rfl
    have hrn : renameFile (createDirAll fs (pjoin lib.output_root (dateDir t))) f.path
        (pjoin lib.output_root (dateDir t ++ '/' :: base)) =
        some { createDirAll fs (pjoin lib.output_root (dateDir t)) with
          files := (pjoin lib.output_root (dateDir t ++ '/' :: base), d) ::
            ((createDirAll fs (pjoin lib.output_root (dateDir t))).files.filter
              (fun e => e.1 ≠ f.path)) } := by
      unfold renameFile
      rw [hfiles, show lookupFile fs.files f.path = some d from hd]
    refine ⟨?_, ?_, ?_⟩
    · simp [sortOne, hd, hc, hb, hrn]
    · simp [sortOne, hd, hc, hb, hrn]
    · simp only [sortOne, hd, hc, hb, hrn]
      show pjoin lib.output_root (dateDir t) ∈
        (ancestors (pjoin lib.output_root (dateDir t)) ++ fs.dirs)
      exact List.mem_append_left _ (List.mem_cons_self _ _)
  · intro lib fs f d hd hc
    simp [sortOne, hd, hc]

/-- C8 witness: a concrete file created on 2024-03-05 lands at
`2024/3/5/pic.jpg` (no zero padding), with the date directory created. -/
theorem c8_witness :
    (sortOne libEmptyC fsPic picFile .date).2.2 = .ok () ∧
    (sortOne libEmptyC fsPic picFile .date).1.files
      = [⟨testHashFn ['p'], "2024/3/5/pic.jpg".data⟩] ∧
    pjoin outRootC "2024/3/5".data ∈ (sortOne libEmptyC fsPic picFile .date).2.1.dirs := by
  obtain ⟨h1, h2, h3⟩ := c8_date_policy.1 libEmptyC fsPic picFile ⟨['p'], some 1709619200⟩
    1709619200 "pic.jpg".data (by decide) rfl (by decide)
  refine ⟨h1, ?_, ?_⟩
  · rw [h2]
    decide
  · rw [show pjoin outRootC ("2024/3/5".data) =
      pjoin libEmptyC.output_root (dateDir 1709619200) from by decide]
    exact h3

end Po
